import Mathlib

/-!
Verification of the `lines` package (file `files/lines/lines.go`).

The core of the package is `unwrapLinesInString text connector`: it splits
`text` on newline characters, joins every run of consecutive lines ending
(after right-trimming spaces, CR, LF and tabs) in the `connector` marker with
the first following unmarked line, clears the absorbed lines to empty strings
in place, and rejoins everything with newlines.

The Go slice accesses inside the forward scan of a run can step past the end
of the slice (when a run of marked lines reaches a final line that itself ends
in the marker); that execution panics.  The model therefore returns
`Option`: `none` models that panic, `some s` models a normal return of `s`.

Lines are modelled as `List Char`; the model mirrors the Go source
statement by statement.  The outer Go loop `for n := range lines` performs
exactly `len(lines)` iterations, and each recursive call below consumes
exactly one of those iterations, so the recursion is driven by a fuel
counter that starts at the number of lines; with that fuel the
out-of-fuel branch is unreachable (every lemma below carries the invariant
`ls.length ≤ fuel`).
-/

namespace LinesPkg

/-- A line of text, as a list of characters. -/
abbrev Line := List Char

/-- Characters removed by `strings.TrimRight(s, " \r\n\t")` in the Go source. -/
def rtrimChar (c : Char) : Bool :=
  c == ' ' || c == '\r' || c == '\n' || c == '\t'

/-- Characters removed by `strings.TrimLeft(s, " \t")` in the Go source. -/
def ltrimChar (c : Char) : Bool :=
  c == ' ' || c == '\t'

/-- Model of `strings.TrimRight(s, " \r\n\t")`. -/
def goTrimRight (l : Line) : Line :=
  (l.reverse.dropWhile rtrimChar).reverse

/-- Model of `strings.TrimLeft(s, " \t")`. -/
def goTrimLeft (l : Line) : Line :=
  l.dropWhile ltrimChar

/-- Model of `strings.HasSuffix(l, suf)`. -/
def endsWith (l suf : Line) : Bool :=
  suf.isSuffixOf l

/-- Model of `strings.TrimSuffix(l, suf)`: removes one copy of `suf` from the
end of `l` when present, otherwise returns `l` unchanged. -/
def trimSuffix (l suf : Line) : Line :=
  if endsWith l suf then l.take (l.length - suf.length) else l

/-- Model of `strings.Split(text, "\n")`: split on every newline character.
`splitLines [] = [[]]`, matching Go's `strings.Split("", "\n") = [""]`. -/
def splitLines : List Char → List Line
  | [] => [[]]
  | c :: cs =>
    if c = '\n' then [] :: splitLines cs
    else
      match splitLines cs with
      | [] => [[c]]
      | l :: ls => (c :: l) :: ls

/-- Model of `strings.Join(lines, "\n")`. -/
def joinLines : List Line → List Char
  | [] => []
  | [l] => l
  | l :: l₂ :: ls => l ++ '\n' :: joinLines (l₂ :: ls)

/-- Model of the inner forward scan of `unwrapLinesInString` (the
`for current := first; strings.HasSuffix(lines[current], connector);` loop).
Called on the lines after the first marked line of a run, it right-trims each
line as it is read, collects the further marked lines of the run (`mids`),
the terminator (the first line that, after trimming, does not end in the
marker) and the untouched remainder.  When every remaining line is marked the
Go loop reads `lines[next]` one past the end of the slice and panics, which
is modelled by `none`. -/
def collectRun (conn : Line) : List Line → Option (List Line × Line × List Line)
  | [] => none
  | r :: rs =>
    let r' := goTrimRight r
    if endsWith r' conn then
      match rs with
      | [] => none
      | _ :: _ =>
        match collectRun conn rs with
        | none => none
        | some (mids, term, rem) => some (r' :: mids, term, rem)
    else
      some ([], r', rs)

/-- The fragment contributed to a joined line by each line of a run after the
first: trailing marker stripped, then leading spaces and tabs stripped
(`strings.TrimLeft(strings.TrimSuffix(lines[i], connector), " \t")`). -/
def contFragment (conn : Line) (x : Line) : Line :=
  goTrimLeft (trimSuffix x conn)

/-- Model of the outer loop of `unwrapLinesInString` on the list of lines.
Each step handles one index of the Go loop `for n := range lines`:
right-trim the current line; if it ends in the marker, either strip the
marker and return when it is the last line, or scan the run with
`collectRun`, store the joined line at the run's start and clear the
absorbed positions to empty lines, continuing the scan over those cleared
positions exactly as the Go loop does.  The fuel counts the remaining loop
iterations; the top-level call passes the number of lines, which is exact. -/
def unwrapFuel (conn : Line) : Nat → List Line → Option (List Line)
  | _, [] => some []
  | 0, _ :: _ => none
  | fuel + 1, l :: rest =>
    let l' := goTrimRight l
    if endsWith l' conn then
      match rest with
      | [] => some [trimSuffix l' conn]
      | _ :: _ =>
        match collectRun conn rest with
        | none => none
        | some (mids, term, rem) =>
          let joined :=
            trimSuffix l' conn ++ ((mids ++ [term]).map (contFragment conn)).flatten
          match unwrapFuel conn fuel (List.replicate (mids.length + 1) [] ++ rem) with
          | none => none
          | some rest' => some (joined :: rest')
    else
      match unwrapFuel conn fuel rest with
      | none => none
      | some rest' => some (l' :: rest')

/-- The outer loop run on a list of lines with its exact fuel. -/
def unwrapLines (conn : Line) (ls : List Line) : Option (List Line) :=
  unwrapFuel conn ls.length ls

/-- Model of `unwrapLinesInString(text, connector)` from the Go source:
`none` models the out-of-range panic of the forward scan, `some s` a normal
return of `s`. -/
def unwrapLinesInString (text connector : String) : Option String :=
  (unwrapLines connector.data (splitLines text.data)).map
    (fun ls => String.mk (joinLines ls))

/-- Number of lines of a string, splitting on newline. -/
def numLines (s : String) : Nat :=
  (splitLines s.data).length

/-- The continuation marker constant `wrap = "\\"` of the Go source. -/
def wrap : String := "\\"

/-- A line ends, after right-trimming, in the marker (the run-membership test
of the specification: "lines ending (after trimming trailing
whitespace/CR/LF/tab) in the marker"). -/
def specMarked (conn : Line) (r : Line) : Bool :=
  endsWith (goTrimRight r) conn

/-- Specification-side unwrapping of the line sequence, written from the
words of the contract in the design document rather than from the Go scan:
the run after a marked first line is the maximal `takeWhile` block of lines
that are marked after trimming, its terminator is the head of the matching
`dropWhile`, the joined line concatenates the first line with the marker
stripped and the marker-stripped, left-trimmed fragments of the run lines
and the terminator, every absorbed position is cleared to an empty line, and
scanning continues where the loop left off, over the cleared positions.  A
marked final line has its marker stripped and ends the pass.  The contract
leaves a run with no terminator line unspecified; that branch clears the
whole tail and is never reached under the hypotheses of the refinement
theorem.  Fuel counts scan steps exactly as in `unwrapFuel`. -/
def specUnwrapFuel (conn : Line) : Nat → List Line → List Line
  | _, [] => []
  | 0, _ :: _ => []
  | fuel + 1, l :: rest =>
    let l' := goTrimRight l
    if endsWith l' conn then
      match rest with
      | [] => [trimSuffix l' conn]
      | _ :: _ =>
        let mids := (rest.takeWhile (specMarked conn)).map goTrimRight
        match rest.dropWhile (specMarked conn) with
        | [] =>
          (trimSuffix l' conn ++ (mids.map (contFragment conn)).flatten)
            :: List.replicate rest.length []
        | t :: post =>
          let joined :=
            trimSuffix l' conn ++
              ((mids ++ [goTrimRight t]).map (contFragment conn)).flatten
          joined :: specUnwrapFuel conn fuel (List.replicate (mids.length + 1) [] ++ post)
    else
      l' :: specUnwrapFuel conn fuel rest

/-- Specification-side unwrapping of a whole string. -/
def specUnwrapString (text connector : String) : String :=
  String.mk (joinLines
    (specUnwrapFuel connector.data (splitLines text.data).length (splitLines text.data)))

/-- Cleanup callback handed back by `Unwrap`: either the initial no-op
`func() {}` assigned on entry, or the closure `func() { os.Remove(tmpFile.Name()) }`
assigned once the temp file exists.  `Option CleanAction` models the Go
`func()` value, with `none` standing for a nil function — `Unwrap` is
claimed never to return that. -/
inductive CleanAction
  | noop
  | remove (path : String)
deriving DecidableEq

/-- Outcomes of the file-system operations `Unwrap` performs, so that its
control flow becomes a pure function of them: whether opening the source
file succeeds, whether reading it succeeds and what text it yields, whether
creating the temp file succeeds and what name the created file gets, and
whether the write to the temp file succeeds. -/
structure IOEnv where
  openOk : Bool
  readOk : Bool
  content : String
  tempOk : Bool
  tempName : String
  writeOk : Bool
deriving DecidableEq

/-- Model of Go's `filepath.Base`: the last element of the path, after
dropping trailing slashes; `"."` for an empty path, `"/"` for a path of
slashes only. -/
def goPathBase (p : List Char) : List Char :=
  if p.isEmpty then ['.']
  else
    let q := (p.reverse.dropWhile (fun c => c == '/')).reverse
    if q.isEmpty then ['/']
    else (q.reverse.takeWhile (fun c => !(c == '/'))).reverse

/-- Model of Go's `filepath.Ext`: the suffix of the path starting at the
final dot in the final element, empty when that element has no dot. -/
def goPathExt (p : List Char) : List Char :=
  let seg := p.reverse.takeWhile (fun c => !(c == '/'))
  if seg.contains '.' then ((seg.takeWhile (fun c => !(c == '.'))) ++ ['.']).reverse
  else []

/-- Temp-file name pattern derived in `tempFile`:
`fmt.Sprintf("%s*%s", strings.TrimSuffix(filepath.Base(filePath), ext), ext)`. -/
def tmpPattern (p : String) : String :=
  let ext := goPathExt p.data
  String.mk (trimSuffix (goPathBase p.data) ext ++ '*' :: ext)

/-- Model of `readFile`: open then read, each step failing with the
descriptive message of the Go source. -/
def readFileModel (fp : String) (env : IOEnv) : Except String String :=
  if env.openOk = false then Except.error ("Failed to open file: " ++ fp)
  else if env.readOk = false then Except.error ("Failed to read from file: " ++ fp)
  else Except.ok env.content

/-- Model of `tempFile`: derive the pattern from the source path and create
the temp file, failing with the descriptive message of the Go source (its
"Failed to created" typo included). -/
def tempFileModel (fp : String) (env : IOEnv) : Except String String :=
  if env.tempOk = false then
    Except.error ("Failed to created a temp file: " ++ tmpPattern fp)
  else Except.ok env.tempName

/-- Model of `Unwrap`, following its control flow statement by statement:
set the cleanup to the no-op, read the source (abort on error), create the
temp file (abort on error), switch the cleanup to removing the temp file,
unwrap the text (a panic of the unwrapper propagates, modelled `none`), then
write, returning the temp path and the write error when the write fails and
the temp path with no error on success.  The result triple is
`(newFilePath, cleanUp, err)`. -/
def UnwrapModel (fp : String) (env : IOEnv) :
    Option (String × Option CleanAction × Option String) :=
  let cleanUp : Option CleanAction := some CleanAction.noop
  match readFileModel fp env with
  | Except.error e => some ("", cleanUp, some e)
  | Except.ok text =>
    match tempFileModel fp env with
    | Except.error e => some ("", cleanUp, some e)
    | Except.ok tmpName =>
      let cleanUp := some (CleanAction.remove tmpName)
      match unwrapLinesInString text wrap with
      | none => none
      | some _ =>
        if env.writeOk = false then
          some (tmpName, cleanUp, some ("Failed to write unwrapped text to: " ++ tmpName))
        else some (tmpName, cleanUp, none)

/-! ### Splitting and joining -/

theorem splitLines_ne_nil (s : List Char) : splitLines s ≠ [] := by
  induction s with
  | nil => simp [splitLines]
  | cons c cs ih =>
    by_cases h : c = '\n'
    · simp [splitLines, h]
    · cases hs : splitLines cs with
      | nil => simp [splitLines, h, hs]
      | cons l ls => simp [splitLines, h, hs]

theorem no_newline_of_mem_splitLines {s : List Char} {l : Line}
    (hl : l ∈ splitLines s) : '\n' ∉ l := by
  induction s generalizing l with
  | nil =>
    simp [splitLines] at hl
    simp [hl]
  | cons c cs ih =>
    by_cases h : c = '\n'
    · simp [splitLines, h] at hl
      rcases hl with hl | hl
      · simp [hl]
      · exact ih hl
    · cases hs : splitLines cs with
      | nil => exact absurd hs (splitLines_ne_nil cs)
      | cons m ms =>
        simp [splitLines, h, hs] at hl
        rcases hl with hl | hl
        · subst hl
          have hm : '\n' ∉ m := ih (by simp [hs])
          simp [h, hm]
          intro hc
          exact h hc.symm
        · exact ih (by simp [hs, hl])

theorem joinLines_cons (l : Line) (rest : List Line) (h : rest ≠ []) :
    joinLines (l :: rest) = l ++ '\n' :: joinLines rest := by
  cases rest with
  | nil => exact absurd rfl h
  | cons r rs => simp [joinLines]

theorem joinLines_splitLines (s : List Char) : joinLines (splitLines s) = s := by
  induction s with
  | nil => simp [splitLines, joinLines]
  | cons c cs ih =>
    by_cases h : c = '\n'
    · rw [splitLines, if_pos h,
        joinLines_cons _ _ (splitLines_ne_nil cs), ih, h]
      simp
    · cases hs : splitLines cs with
      | nil => exact absurd hs (splitLines_ne_nil cs)
      | cons m ms =>
        rw [splitLines, if_neg h, hs]
        cases ms with
        | nil =>
          rw [hs] at ih
          simpa [joinLines] using congrArg (c :: ·) ih
        | cons m₂ ms₂ =>
          rw [hs, joinLines_cons _ _ (by simp)] at ih
          rw [joinLines_cons _ _ (by simp)]
          simpa using congrArg (c :: ·) ih

theorem splitLines_of_no_newline {l : Line} (h : '\n' ∉ l) :
    splitLines l = [l] := by
  induction l with
  | nil => simp [splitLines]
  | cons c cs ih =>
    have hc : ¬ c = '\n' := by
      intro hc
      exact h (by simp [hc])
    have hcs : '\n' ∉ cs := by
      intro hx
      exact h (by simp [hx])
    rw [splitLines, if_neg hc, ih hcs]

theorem splitLines_append_newline {l : Line} (rest : List Char)
    (h : '\n' ∉ l) : splitLines (l ++ '\n' :: rest) = l :: splitLines rest := by
  induction l with
  | nil => simp [splitLines]
  | cons c cs ih =>
    have hc : ¬ c = '\n' := by
      intro hc
      exact h (by simp [hc])
    have hcs : '\n' ∉ cs := by
      intro hx
      exact h (by simp [hx])
    rw [List.cons_append, splitLines, if_neg hc, ih hcs]

theorem splitLines_joinLines {ls : List Line} (hne : ls ≠ [])
    (h : ∀ l ∈ ls, '\n' ∉ l) : splitLines (joinLines ls) = ls := by
  induction ls with
  | nil => exact absurd rfl hne
  | cons l rest ih =>
    cases rest with
    | nil =>
      simp [joinLines]
      exact splitLines_of_no_newline (h l (by simp))
    | cons r rs =>
      rw [joinLines_cons _ _ (by simp),
        splitLines_append_newline _ (h l (by simp)),
        ih (by simp) (fun x hx => h x (by simp [hx]))]

/-! ### Trimming helpers -/

theorem mem_goTrimRight {x : Char} {l : Line} (h : x ∈ goTrimRight l) : x ∈ l := by
  rw [goTrimRight, List.mem_reverse] at h
  exact List.mem_reverse.mp ((List.dropWhile_sublist rtrimChar).subset h)

theorem mem_goTrimLeft {x : Char} {l : Line} (h : x ∈ goTrimLeft l) : x ∈ l :=
  (List.dropWhile_sublist ltrimChar).subset h

theorem mem_trimSuffix {x : Char} {l suf : Line} (h : x ∈ trimSuffix l suf) :
    x ∈ l := by
  rw [trimSuffix] at h
  by_cases he : endsWith l suf
  · rw [if_pos he] at h
    exact List.take_subset _ _ h
  · rwa [if_neg he] at h

theorem endsWith_nil_of_ne {conn : Line} (h : conn ≠ []) :
    endsWith ([] : Line) conn = false := by
  rw [endsWith, Bool.eq_false_iff]
  intro hs
  rw [List.isSuffixOf_iff_suffix, List.suffix_nil] at hs
  exact h hs

theorem connector_ne_nil_of_specMarked_false {conn : Line} {l : Line}
    (h : specMarked conn l = false) : conn ≠ [] := by
  intro hc
  subst hc
  rw [specMarked, endsWith] at h
  simp [List.isSuffixOf_iff_suffix] at h

theorem goTrimRight_nil : goTrimRight [] = [] := rfl

/-! ### The forward scan `collectRun` -/

theorem collectRun_cons_unmarked {conn r : Line} (rs : List Line)
    (he : endsWith (goTrimRight r) conn = false) :
    collectRun conn (r :: rs) = some ([], goTrimRight r, rs) := by
  simp [collectRun, he]

theorem collectRun_cons_marked_nil {conn r : Line}
    (he : endsWith (goTrimRight r) conn = true) :
    collectRun conn [r] = none := by
  simp [collectRun, he]

theorem collectRun_cons_marked_cons {conn r y : Line} (ys : List Line)
    (he : endsWith (goTrimRight r) conn = true) :
    collectRun conn (r :: y :: ys) =
      match collectRun conn (y :: ys) with
      | none => none
      | some (mids, term, rem) => some (goTrimRight r :: mids, term, rem) := by
  rw [collectRun.eq_def]
  simp [he]

theorem collectRun_length {conn : Line} :
    ∀ {rest mids term rem}, collectRun conn rest = some (mids, term, rem) →
      mids.length + 1 + rem.length = rest.length := by
  intro rest
  induction rest with
  | nil => intro mids term rem h; simp [collectRun] at h
  | cons r rs ih =>
    intro mids term rem h
    by_cases he : endsWith (goTrimRight r) conn
    · cases rs with
      | nil => rw [collectRun_cons_marked_nil he] at h; simp at h
      | cons y ys =>
        rw [collectRun_cons_marked_cons ys he] at h
        cases hc : collectRun conn (y :: ys) with
        | none => rw [hc] at h; simp at h
        | some triple =>
          obtain ⟨m, t, re⟩ := triple
          rw [hc] at h
          simp only [Option.some.injEq, Prod.mk.injEq] at h
          obtain ⟨hm, ht, hr⟩ := h
          have := ih hc
          subst hm ht hr
          simp at this ⊢
          omega
    · rw [collectRun_cons_unmarked rs (by simpa using he)] at h
      simp only [Option.some.injEq, Prod.mk.injEq] at h
      obtain ⟨hm, ht, hr⟩ := h
      subst hm hr
      simp only [List.length_nil, List.length_cons]
      omega

theorem collectRun_eq {conn : Line} :
    ∀ {rest mids term rem}, collectRun conn rest = some (mids, term, rem) →
      ∃ t, rest.dropWhile (specMarked conn) = t :: rem ∧ term = goTrimRight t ∧
        mids = (rest.takeWhile (specMarked conn)).map goTrimRight := by
  intro rest
  induction rest with
  | nil => intro mids term rem h; simp [collectRun] at h
  | cons r rs ih =>
    intro mids term rem h
    by_cases he : endsWith (goTrimRight r) conn
    · cases rs with
      | nil => rw [collectRun_cons_marked_nil he] at h; simp at h
      | cons y ys =>
        rw [collectRun_cons_marked_cons ys he] at h
        cases hc : collectRun conn (y :: ys) with
        | none => rw [hc] at h; simp at h
        | some triple =>
          obtain ⟨m, t, re⟩ := triple
          rw [hc] at h
          simp only [Option.some.injEq, Prod.mk.injEq] at h
          obtain ⟨hm, ht, hr⟩ := h
          obtain ⟨t₀, hdrop, hterm, hmids⟩ := ih hc
          refine ⟨t₀, ?_, ?_, ?_⟩
          · rw [List.dropWhile_cons, if_pos (by simpa [specMarked] using he), hdrop, hr]
          · rw [← ht, hterm]
          · rw [← hm, List.takeWhile_cons, if_pos (by simpa [specMarked] using he)]
            simp [hmids]
    · rw [collectRun_cons_unmarked rs (by simpa using he)] at h
      simp only [Option.some.injEq, Prod.mk.injEq] at h
      obtain ⟨hm, ht, hr⟩ := h
      refine ⟨r, ?_, ?_, ?_⟩
      · rw [List.dropWhile_cons, if_neg (by simpa [specMarked] using he), hr]
      · exact ht.symm
      · rw [← hm, List.takeWhile_cons, if_neg (by simpa [specMarked] using he)]
        simp

theorem collectRun_isSome {conn : Line} :
    ∀ {rest : List Line} {lst : Line}, rest.getLast? = some lst →
      specMarked conn lst = false → (collectRun conn rest).isSome := by
  intro rest
  induction rest with
  | nil => intro lst h _; simp at h
  | cons r rs ih =>
    intro lst hlast hm
    by_cases he : endsWith (goTrimRight r) conn
    · cases rs with
      | nil =>
        simp at hlast
        subst hlast
        rw [specMarked] at hm
        rw [hm] at he
        exact absurd he (by simp)
      | cons y ys =>
        rw [List.getLast?_cons_cons] at hlast
        have hsome := ih hlast hm
        rw [collectRun_cons_marked_cons ys he]
        cases hc : collectRun conn (y :: ys) with
        | none => rw [hc] at hsome; simp at hsome
        | some triple =>
          obtain ⟨m, t, re⟩ := triple
          simp
    · rw [collectRun_cons_unmarked rs (by simpa using he)]
      simp

/-! ### Unfolding equations for the outer loop -/

theorem unwrapFuel_nil {conn : Line} (fuel : Nat) :
    unwrapFuel conn fuel [] = some [] := by
  cases fuel <;> rfl

theorem unwrapFuel_succ_unmarked_none {conn l : Line} (fuel : Nat) (rest : List Line)
    (he : endsWith (goTrimRight l) conn = false)
    (hr : unwrapFuel conn fuel rest = none) :
    unwrapFuel conn (fuel + 1) (l :: rest) = none := by
  rw [unwrapFuel.eq_def]
  simp [he, hr]

theorem unwrapFuel_succ_unmarked_some {conn l : Line} (fuel : Nat)
    {rest rest' : List Line} (he : endsWith (goTrimRight l) conn = false)
    (hr : unwrapFuel conn fuel rest = some rest') :
    unwrapFuel conn (fuel + 1) (l :: rest) = some (goTrimRight l :: rest') := by
  rw [unwrapFuel.eq_def]
  simp [he, hr]

theorem unwrapFuel_succ_marked_nil {conn l : Line} (fuel : Nat)
    (he : endsWith (goTrimRight l) conn = true) :
    unwrapFuel conn (fuel + 1) [l] = some [trimSuffix (goTrimRight l) conn] := by
  rw [unwrapFuel.eq_def]
  simp [he]

theorem unwrapFuel_succ_marked_cons_none {conn l y : Line} (fuel : Nat)
    (ys : List Line) (he : endsWith (goTrimRight l) conn = true)
    (hc : collectRun conn (y :: ys) = none) :
    unwrapFuel conn (fuel + 1) (l :: y :: ys) = none := by
  rw [unwrapFuel.eq_def]
  simp [he, hc]

theorem unwrapFuel_succ_marked_cons_some_none {conn l y term : Line} (fuel : Nat)
    {ys mids rem : List Line} (he : endsWith (goTrimRight l) conn = true)
    (hc : collectRun conn (y :: ys) = some (mids, term, rem))
    (hr : unwrapFuel conn fuel (List.replicate (mids.length + 1) [] ++ rem) = none) :
    unwrapFuel conn (fuel + 1) (l :: y :: ys) = none := by
  rw [unwrapFuel.eq_def]
  simp [he, hc, hr]

theorem unwrapFuel_succ_marked_cons_some_some {conn l y term : Line} (fuel : Nat)
    {ys mids rem rest' : List Line} (he : endsWith (goTrimRight l) conn = true)
    (hc : collectRun conn (y :: ys) = some (mids, term, rem))
    (hr : unwrapFuel conn fuel (List.replicate (mids.length + 1) [] ++ rem)
      = some rest') :
    unwrapFuel conn (fuel + 1) (l :: y :: ys) =
      some ((trimSuffix (goTrimRight l) conn ++
        ((mids ++ [term]).map (contFragment conn)).flatten) :: rest') := by
  rw [unwrapFuel.eq_def]
  simp [he, hc, hr]

theorem specUnwrapFuel_nil {conn : Line} (fuel : Nat) :
    specUnwrapFuel conn fuel [] = [] := by
  cases fuel <;> rfl

theorem specUnwrapFuel_succ_unmarked {conn l : Line} (fuel : Nat) (rest : List Line)
    (he : endsWith (goTrimRight l) conn = false) :
    specUnwrapFuel conn (fuel + 1) (l :: rest) =
      goTrimRight l :: specUnwrapFuel conn fuel rest := by
  rw [specUnwrapFuel.eq_def]
  simp [he]

theorem specUnwrapFuel_succ_marked_nil {conn l : Line} (fuel : Nat)
    (he : endsWith (goTrimRight l) conn = true) :
    specUnwrapFuel conn (fuel + 1) [l] = [trimSuffix (goTrimRight l) conn] := by
  rw [specUnwrapFuel.eq_def]
  simp [he]

theorem specUnwrapFuel_succ_marked_cons {conn l y t : Line} (fuel : Nat)
    (ys post : List Line) (he : endsWith (goTrimRight l) conn = true)
    (hdrop : (y :: ys).dropWhile (specMarked conn) = t :: post) :
    specUnwrapFuel conn (fuel + 1) (l :: y :: ys) =
      (trimSuffix (goTrimRight l) conn ++
        ((((y :: ys).takeWhile (specMarked conn)).map goTrimRight
            ++ [goTrimRight t]).map (contFragment conn)).flatten)
        :: specUnwrapFuel conn fuel
            (List.replicate
              ((((y :: ys).takeWhile (specMarked conn)).map goTrimRight).length + 1) []
              ++ post) := by
  rw [specUnwrapFuel.eq_def]
  simp [he, hdrop]

/-! ### Properties of the outer loop -/

theorem collectRun_sources {conn : Line} {rest mids rem : List Line} {term : Line}
    (h : collectRun conn rest = some (mids, term, rem)) :
    (∀ z ∈ mids ++ [term], ∃ w ∈ rest, z = goTrimRight w) ∧ rem ⊆ rest := by
  obtain ⟨t, hdrop, hterm, hmids⟩ := collectRun_eq h
  have hsuf : t :: rem <:+ rest := by
    rw [← hdrop]
    exact List.dropWhile_suffix (specMarked conn)
  constructor
  · intro z hz
    rcases List.mem_append.mp hz with hz | hz
    · rw [hmids] at hz
      obtain ⟨w, hw, hwz⟩ := List.mem_map.mp hz
      exact ⟨w, (List.takeWhile_sublist (specMarked conn)).subset hw, hwz.symm⟩
    · simp at hz
      exact ⟨t, hsuf.subset (by simp), by rw [hz, hterm]⟩
  · intro x hx
    exact hsuf.subset (by simp [hx])

theorem unwrapFuel_length {conn : Line} :
    ∀ (fuel : Nat) {ls ls' : List Line}, ls.length ≤ fuel →
      unwrapFuel conn fuel ls = some ls' → ls'.length = ls.length := by
  intro fuel
  induction fuel with
  | zero =>
    intro ls ls' hlen h
    cases ls with
    | nil =>
      rw [unwrapFuel_nil] at h
      simp only [Option.some.injEq] at h
      rw [← h]
    | cons l rest => simp at hlen
  | succ fuel ih =>
    intro ls ls' hlen h
    cases ls with
    | nil =>
      rw [unwrapFuel_nil] at h
      simp only [Option.some.injEq] at h
      rw [← h]
    | cons l rest =>
      by_cases he : endsWith (goTrimRight l) conn
      · cases rest with
        | nil =>
          rw [unwrapFuel_succ_marked_nil fuel he] at h
          simp only [Option.some.injEq] at h
          rw [← h]
          simp
        | cons y ys =>
          cases hc : collectRun conn (y :: ys) with
          | none =>
            rw [unwrapFuel_succ_marked_cons_none fuel ys he hc] at h
            simp at h
          | some triple =>
            obtain ⟨mids, term, rem⟩ := triple
            cases hr : unwrapFuel conn fuel (List.replicate (mids.length + 1) [] ++ rem) with
            | none =>
              rw [unwrapFuel_succ_marked_cons_some_none fuel he hc hr] at h
              simp at h
            | some rest' =>
              rw [unwrapFuel_succ_marked_cons_some_some fuel he hc hr] at h
              simp only [Option.some.injEq] at h
              have hclen := collectRun_length hc
              simp only [List.length_cons] at hclen hlen
              have hlen2 :
                  (List.replicate (mids.length + 1) ([] : Line) ++ rem).length ≤ fuel := by
                simp only [List.length_append, List.length_replicate]
                omega
              have hrec := ih hlen2 hr
              simp only [List.length_append, List.length_replicate] at hrec
              rw [← h]
              simp only [List.length_cons]
              omega
      · cases hr : unwrapFuel conn fuel rest with
        | none =>
          rw [unwrapFuel_succ_unmarked_none fuel rest (by simpa using he) hr] at h
          simp at h
        | some rest' =>
          rw [unwrapFuel_succ_unmarked_some fuel (by simpa using he) hr] at h
          simp only [Option.some.injEq] at h
          have hrec := ih (by simpa using Nat.le_of_succ_le_succ (by simpa using hlen)) hr
          rw [← h]
          simp [hrec]

theorem unwrapFuel_no_newline {conn : Line} :
    ∀ (fuel : Nat) {ls ls' : List Line}, ls.length ≤ fuel →
      (∀ l ∈ ls, '\n' ∉ l) → unwrapFuel conn fuel ls = some ls' →
      ∀ l ∈ ls', '\n' ∉ l := by
  intro fuel
  induction fuel with
  | zero =>
    intro ls ls' hlen hnl h
    cases ls with
    | nil =>
      rw [unwrapFuel_nil] at h
      simp only [Option.some.injEq] at h
      rw [← h]
      simp
    | cons l rest => simp at hlen
  | succ fuel ih =>
    intro ls ls' hlen hnl h
    cases ls with
    | nil =>
      rw [unwrapFuel_nil] at h
      simp only [Option.some.injEq] at h
      rw [← h]
      simp
    | cons l rest =>
      by_cases he : endsWith (goTrimRight l) conn
      · cases rest with
        | nil =>
          rw [unwrapFuel_succ_marked_nil fuel he] at h
          simp only [Option.some.injEq] at h
          rw [← h]
          intro z hz
          simp only [List.mem_singleton] at hz
          subst hz
          intro hx
          exact hnl l (by simp) (mem_goTrimRight (mem_trimSuffix hx))
        | cons y ys =>
          cases hc : collectRun conn (y :: ys) with
          | none =>
            rw [unwrapFuel_succ_marked_cons_none fuel ys he hc] at h
            simp at h
          | some triple =>
            obtain ⟨mids, term, rem⟩ := triple
            cases hr : unwrapFuel conn fuel (List.replicate (mids.length + 1) [] ++ rem) with
            | none =>
              rw [unwrapFuel_succ_marked_cons_some_none fuel he hc hr] at h
              simp at h
            | some rest' =>
              rw [unwrapFuel_succ_marked_cons_some_some fuel he hc hr] at h
              simp only [Option.some.injEq] at h
              obtain ⟨hsrc, hremsub⟩ := collectRun_sources hc
              have hclen := collectRun_length hc
              have hlen2 :
                  (List.replicate (mids.length + 1) ([] : Line) ++ rem).length ≤ fuel := by
                simp only [List.length_append, List.length_replicate]
                simp only [List.length_cons] at hclen hlen
                omega
              have hnl2 : ∀ z ∈ List.replicate (mids.length + 1) ([] : Line) ++ rem,
                  '\n' ∉ z := by
                intro z hz
                rcases List.mem_append.mp hz with hz | hz
                · rw [List.eq_of_mem_replicate hz]
                  simp
                · exact fun hx => hnl z (by simp [hremsub hz]) hx
              have hrec := ih hlen2 hnl2 hr
              rw [← h]
              intro z hz
              rcases List.mem_cons.mp hz with hz | hz
              · subst hz
                intro hx
                rcases List.mem_append.mp hx with hx | hx
                · exact hnl l (by simp) (mem_goTrimRight (mem_trimSuffix hx))
                · obtain ⟨piece, hpiece, hxin⟩ := List.mem_flatten.mp hx
                  obtain ⟨z₀, hz₀, hz₀p⟩ := List.mem_map.mp hpiece
                  obtain ⟨w, hw, hwz⟩ := hsrc z₀ hz₀
                  rw [← hz₀p] at hxin
                  have : '\n' ∈ w := by
                    rw [hwz] at hxin
                    exact mem_goTrimRight (mem_trimSuffix (mem_goTrimLeft hxin))
                  exact hnl w (by simp [hw]) this
              · exact hrec z hz
      · cases hr : unwrapFuel conn fuel rest with
        | none =>
          rw [unwrapFuel_succ_unmarked_none fuel rest (by simpa using he) hr] at h
          simp at h
        | some rest' =>
          rw [unwrapFuel_succ_unmarked_some fuel (by simpa using he) hr] at h
          simp only [Option.some.injEq] at h
          have hrec := ih (by simpa using Nat.le_of_succ_le_succ (by simpa using hlen))
            (fun z hz => hnl z (by simp [hz])) hr
          rw [← h]
          intro z hz
          rcases List.mem_cons.mp hz with hz | hz
          · subst hz
            exact fun hx => hnl l (by simp) (mem_goTrimRight hx)
          · exact hrec z hz

theorem unwrapFuel_isSome {conn : Line} :
    ∀ (fuel : Nat) {ls : List Line} {lst : Line}, ls.length ≤ fuel →
      ls.getLast? = some lst → specMarked conn lst = false →
      (unwrapFuel conn fuel ls).isSome := by
  intro fuel
  induction fuel with
  | zero =>
    intro ls lst hlen hlast hm
    cases ls with
    | nil => simp [unwrapFuel_nil]
    | cons l rest => simp at hlen
  | succ fuel ih =>
    intro ls lst hlen hlast hm
    cases ls with
    | nil => simp [unwrapFuel_nil]
    | cons l rest =>
      by_cases he : endsWith (goTrimRight l) conn
      · cases rest with
        | nil => simp [unwrapFuel_succ_marked_nil fuel he]
        | cons y ys =>
          rw [List.getLast?_cons_cons] at hlast
          have hcs := collectRun_isSome hlast hm
          cases hc : collectRun conn (y :: ys) with
          | none => rw [hc] at hcs; simp at hcs
          | some triple =>
            obtain ⟨mids, term, rem⟩ := triple
            have hconn : conn ≠ [] := connector_ne_nil_of_specMarked_false hm
            have hclen := collectRun_length hc
            have hlen2 :
                (List.replicate (mids.length + 1) ([] : Line) ++ rem).length ≤ fuel := by
              simp only [List.length_append, List.length_replicate]
              simp only [List.length_cons] at hclen hlen
              omega
            obtain ⟨t, hdrop, hterm, hmids⟩ := collectRun_eq hc
            have hsuf : t :: rem <:+ (y :: ys) := by
              rw [← hdrop]
              exact List.dropWhile_suffix (specMarked conn)
            cases rem with
            | nil =>
              have hlast2 :
                  (List.replicate (mids.length + 1) ([] : Line)
                    ++ ([] : List Line)).getLast? = some [] := by
                rw [List.append_nil, List.replicate_succ', List.getLast?_concat]
              have hm2 : specMarked conn ([] : Line) = false := by
                rw [specMarked, goTrimRight_nil]
                exact endsWith_nil_of_ne hconn
              have hrec := ih hlen2 hlast2 hm2
              cases hr : unwrapFuel conn fuel
                  (List.replicate (mids.length + 1) [] ++ []) with
              | none => rw [hr] at hrec; simp at hrec
              | some rest' =>
                simp [unwrapFuel_succ_marked_cons_some_some fuel he hc hr]
            | cons r0 rs0 =>
              obtain ⟨pre, hpre⟩ := hsuf
              have h1 : (y :: ys).getLast? = (t :: r0 :: rs0).getLast? := by
                rw [← hpre, List.getLast?_append_cons]
              rw [h1, List.getLast?_cons_cons] at hlast
              have hlast2 :
                  (List.replicate (mids.length + 1) ([] : Line)
                    ++ (r0 :: rs0)).getLast? = some lst := by
                rw [List.getLast?_append_of_ne_nil _ (by simp)]
                exact hlast
              have hrec := ih hlen2 hlast2 hm
              cases hr : unwrapFuel conn fuel
                  (List.replicate (mids.length + 1) [] ++ (r0 :: rs0)) with
              | none => rw [hr] at hrec; simp at hrec
              | some rest' =>
                simp [unwrapFuel_succ_marked_cons_some_some fuel he hc hr]
      · cases rest with
        | nil =>
          simp [unwrapFuel_succ_unmarked_some fuel (by simpa using he)
            (unwrapFuel_nil fuel)]
        | cons y ys =>
          rw [List.getLast?_cons_cons] at hlast
          have hlen2 : (y :: ys).length ≤ fuel := by
            simpa using Nat.le_of_succ_le_succ (by simpa using hlen)
          have hrec := ih hlen2 hlast hm
          cases hr : unwrapFuel conn fuel (y :: ys) with
          | none => rw [hr] at hrec; simp at hrec
          | some rest' =>
            simp [unwrapFuel_succ_unmarked_some fuel (by simpa using he) hr]

theorem unwrapFuel_all_unmarked {conn : Line} :
    ∀ (fuel : Nat) {ls : List Line}, ls.length ≤ fuel →
      (∀ l ∈ ls, specMarked conn l = false) →
      unwrapFuel conn fuel ls = some (ls.map goTrimRight) := by
  intro fuel
  induction fuel with
  | zero =>
    intro ls hlen hm
    cases ls with
    | nil => simp [unwrapFuel_nil]
    | cons l rest => simp at hlen
  | succ fuel ih =>
    intro ls hlen hm
    cases ls with
    | nil => simp [unwrapFuel_nil]
    | cons l rest =>
      have he := hm l (by simp)
      rw [specMarked] at he
      have hlen2 : rest.length ≤ fuel := by
        simpa using Nat.le_of_succ_le_succ (by simpa using hlen)
      have hrec := ih hlen2 (fun z hz => hm z (by simp [hz]))
      rw [unwrapFuel_succ_unmarked_some fuel he hrec]
      simp

theorem specUnwrapFuel_eq_of_unwrapFuel {conn : Line} :
    ∀ (fuel : Nat) {ls ls' : List Line}, ls.length ≤ fuel →
      unwrapFuel conn fuel ls = some ls' → specUnwrapFuel conn fuel ls = ls' := by
  intro fuel
  induction fuel with
  | zero =>
    intro ls ls' hlen h
    cases ls with
    | nil =>
      rw [unwrapFuel_nil] at h
      simp only [Option.some.injEq] at h
      rw [specUnwrapFuel_nil, h]
    | cons l rest => simp at hlen
  | succ fuel ih =>
    intro ls ls' hlen h
    cases ls with
    | nil =>
      rw [unwrapFuel_nil] at h
      simp only [Option.some.injEq] at h
      rw [specUnwrapFuel_nil, h]
    | cons l rest =>
      by_cases he : endsWith (goTrimRight l) conn
      · cases rest with
        | nil =>
          rw [unwrapFuel_succ_marked_nil fuel he] at h
          simp only [Option.some.injEq] at h
          rw [specUnwrapFuel_succ_marked_nil fuel he, h]
        | cons y ys =>
          cases hc : collectRun conn (y :: ys) with
          | none =>
            rw [unwrapFuel_succ_marked_cons_none fuel ys he hc] at h
            simp at h
          | some triple =>
            obtain ⟨mids, term, rem⟩ := triple
            cases hr : unwrapFuel conn fuel (List.replicate (mids.length + 1) [] ++ rem) with
            | none =>
              rw [unwrapFuel_succ_marked_cons_some_none fuel he hc hr] at h
              simp at h
            | some rest' =>
              rw [unwrapFuel_succ_marked_cons_some_some fuel he hc hr] at h
              simp only [Option.some.injEq] at h
              obtain ⟨t, hdrop, hterm, hmids⟩ := collectRun_eq hc
              have hclen := collectRun_length hc
              have hlen2 :
                  (List.replicate (mids.length + 1) ([] : Line) ++ rem).length ≤ fuel := by
                simp only [List.length_append, List.length_replicate]
                simp only [List.length_cons] at hclen hlen
                omega
              have hrec := ih hlen2 hr
              rw [specUnwrapFuel_succ_marked_cons fuel ys rem he hdrop, ← hmids,
                ← hterm, hrec, h]
      · cases hr : unwrapFuel conn fuel rest with
        | none =>
          rw [unwrapFuel_succ_unmarked_none fuel rest (by simpa using he) hr] at h
          simp at h
        | some rest' =>
          rw [unwrapFuel_succ_unmarked_some fuel (by simpa using he) hr] at h
          simp only [Option.some.injEq] at h
          have hrec := ih (by simpa using Nat.le_of_succ_le_succ (by simpa using hlen)) hr
          rw [specUnwrapFuel_succ_unmarked fuel rest (by simpa using he), hrec, h]

/-! ### String-level helpers -/

theorem unwrapString_of_all_unmarked (text connector : String)
    (h : ∀ l ∈ splitLines text.data, specMarked connector.data l = false) :
    unwrapLinesInString text connector
      = some (String.mk (joinLines ((splitLines text.data).map goTrimRight))) := by
  rw [unwrapLinesInString, unwrapLines,
    unwrapFuel_all_unmarked (splitLines text.data).length (Nat.le_refl _) h]
  rfl

theorem unwrapString_identity_of_clean (text connector : String)
    (h : ∀ l ∈ splitLines text.data, specMarked connector.data l = false)
    (hfix : ∀ l ∈ splitLines text.data, goTrimRight l = l) :
    unwrapLinesInString text connector = some text := by
  rw [unwrapString_of_all_unmarked text connector h,
    List.map_congr_left hfix, List.map_id', joinLines_splitLines]

/-! ### Claim theorems -/

/-- C1: for every input text and marker on which the unwrapper returns
normally, every maximal run of consecutive marker-terminated lines together
with its terminator line is replaced by the single concatenated line at the
run's start (first line marker-stripped; subsequent run lines and the
terminator marker-stripped and left-trimmed of spaces/tabs) and the other
positions of the run are cleared to empty lines — that is, the returned
string equals the one described by the specification contract,
`specUnwrapString`. -/
theorem unwrap_matches_spec_contract (text connector out : String)
    (h : unwrapLinesInString text connector = some out) :
    out = specUnwrapString text connector := by
  rw [unwrapLinesInString, Option.map_eq_some'] at h
  obtain ⟨ls', hls, hout⟩ := h
  rw [unwrapLines] at hls
  rw [specUnwrapString,
    specUnwrapFuel_eq_of_unwrapFuel (splitLines text.data).length (Nat.le_refl _) hls,
    ← hout]

/-- Witness for C1 at a concrete input with one two-line run. -/
theorem unwrap_matches_spec_contract_witness :
    unwrapLinesInString "a \\\nb\nc" "\\" = some "a b\n\nc" ∧
    "a b\n\nc" = specUnwrapString "a \\\nb\nc" "\\" :=
  ⟨by decide, unwrap_matches_spec_contract "a \\\nb\nc" "\\" "a b\n\nc" (by decide)⟩

/-- C2: whenever the unwrapper returns an output, that output has exactly as
many lines (splitting on newline) as the input: absorbed lines become empty
strings in place, none is removed or added. -/
theorem unwrap_preserves_line_count (text connector out : String)
    (h : unwrapLinesInString text connector = some out) :
    numLines out = numLines text := by
  rw [unwrapLinesInString, Option.map_eq_some'] at h
  obtain ⟨ls', hls, hout⟩ := h
  rw [unwrapLines] at hls
  have hlen := unwrapFuel_length (splitLines text.data).length (Nat.le_refl _) hls
  have hnl := unwrapFuel_no_newline (splitLines text.data).length (Nat.le_refl _)
    (fun l hl => no_newline_of_mem_splitLines hl) hls
  have hne : ls' ≠ [] := by
    intro hnil
    rw [hnil] at hlen
    cases hs : splitLines text.data with
    | nil => exact splitLines_ne_nil text.data hs
    | cons a as => rw [hs] at hlen; simp at hlen
  rw [numLines, numLines, ← hlen, ← hout]
  have hdata : (String.mk (joinLines ls')).data = joinLines ls' := rfl
  rw [hdata, splitLines_joinLines hne hnl]

/-- Witness for C2 at a concrete input. -/
theorem unwrap_preserves_line_count_witness :
    unwrapLinesInString "one \\\ntwo\nthree" "\\" = some "one two\n\nthree" ∧
    numLines "one two\n\nthree" = numLines "one \\\ntwo\nthree" :=
  ⟨by decide,
    unwrap_preserves_line_count "one \\\ntwo\nthree" "\\" "one two\n\nthree" (by decide)⟩

/-- C3: the claim says a trailing marker on the final line is always dropped
with the function returning normally, regardless of earlier lines.  The code
does so only when the final line is reached by the outer loop directly: the
first conjunct shows the good case.  When the line before the final line
also ends in the marker, the forward scan walks the run past the end of the
slice and panics (second conjunct, `none` in the model), contradicting the
claim. -/
theorem unwrap_final_marker_divergence :
    unwrapLinesInString "x\nb\\" "\\" = some "x\nb" ∧
    unwrapLinesInString "a \\\nb \\" "\\" = none := by
  constructor
  · decide
  · decide

/-- C4 counterexample: an input with no marked line but with trailing
whitespace is not returned unchanged — the unwrapper right-trims every
line. -/
theorem unwrap_not_identity_counterexample :
    (∀ l ∈ splitLines ("a \nb" : String).data,
      specMarked ("\\" : String).data l = false) ∧
    unwrapLinesInString "a \nb" "\\" ≠ some "a \nb" := by
  constructor
  · decide
  · decide

/-- C4 amended: on an input in which no line ends (after right-trimming) in
the marker, the unwrapper returns the input with every line right-trimmed of
trailing spaces/CR/LF/tabs; it is the identity exactly on such inputs whose
lines carry no trailing whitespace. -/
theorem unwrap_no_marker_right_trims (text connector : String)
    (h : ∀ l ∈ splitLines text.data, specMarked connector.data l = false) :
    unwrapLinesInString text connector
      = some (String.mk (joinLines ((splitLines text.data).map goTrimRight))) ∧
    ((∀ l ∈ splitLines text.data, goTrimRight l = l) →
      unwrapLinesInString text connector = some text) :=
  ⟨unwrapString_of_all_unmarked text connector h,
    fun hfix => unwrapString_identity_of_clean text connector h hfix⟩

/-- Witness for C4 as amended: a marker-free input with trailing whitespace
on its first line right-trims to the clean form, and a clean input is
returned unchanged. -/
theorem unwrap_no_marker_right_trims_witness :
    (∀ l ∈ splitLines ("hello\nworld" : String).data,
      specMarked ("\\" : String).data l = false) ∧
    unwrapLinesInString "hello\nworld" "\\" = some "hello\nworld" :=
  ⟨by decide,
    (unwrap_no_marker_right_trims "hello\nworld" "\\" (by decide)).2 (by decide)⟩

/-- C5 counterexample: on the spec's example input the first output line is
not `"ab"` — the space the author wrote before the marker survives, because
only the marker itself is stripped from the first line of a run. -/
theorem unwrap_example_output_not_ab :
    unwrapLinesInString "a \\\nb\nc" "\\" ≠ some "ab\n\nc" := by
  decide

/-- C5 amended: on input `"a \\\nb\nc"` the unwrapper returns exactly
`"a b\n\nc"` — first line `"a b"` (the space before the marker preserved,
the marker stripped, `"b"` appended with no separator), second line empty,
third line `"c"`. -/
theorem unwrap_example_output_a_space_b :
    unwrapLinesInString "a \\\nb\nc" "\\" = some "a b\n\nc" := by
  decide

/-- C6 counterexample: the unwrapper is not idempotent.  A line ending in a
doubled marker keeps one trailing marker in the output, and re-running the
unwrapper strips it again. -/
theorem unwrap_not_idempotent_counterexample :
    unwrapLinesInString "x\\\\" "\\" = some "x\\" ∧
    unwrapLinesInString "x\\" "\\" ≠ some "x\\" := by
  constructor
  · decide
  · decide

/-- C6 amended: re-running the unwrapper on an output yields that output
unchanged provided the output's lines are free of trailing whitespace and of
trailing markers — the situation the specification's parenthetical "(which
contains no markers)" assumes, which doubled markers and marker-exposed
trailing whitespace can defeat. -/
theorem unwrap_idempotent_on_clean_output (text connector out : String)
    (_h : unwrapLinesInString text connector = some out)
    (hfix : ∀ l ∈ splitLines out.data, goTrimRight l = l)
    (hmark : ∀ l ∈ splitLines out.data, endsWith l connector.data = false) :
    unwrapLinesInString out connector = some out := by
  have hm : ∀ l ∈ splitLines out.data, specMarked connector.data l = false := by
    intro l hl
    rw [specMarked, hfix l hl]
    exact hmark l hl
  exact unwrapString_identity_of_clean out connector hm hfix

/-- Witness for C6 as amended at a concrete unwrapped output. -/
theorem unwrap_idempotent_on_clean_output_witness :
    unwrapLinesInString "p \\\nq\nr" "\\" = some "p q\n\nr" ∧
    unwrapLinesInString "p q\n\nr" "\\" = some "p q\n\nr" :=
  ⟨by decide,
    unwrap_idempotent_on_clean_output "p \\\nq\nr" "\\" "p q\n\nr"
      (by decide) (by decide) (by decide)⟩

/-- C9: the empty input yields the empty (single-line) output, for any
marker string. -/
theorem unwrap_empty_input (connector : String) :
    unwrapLinesInString "" connector = some "" := by
  have hsplit : splitLines (("" : String).data) = [[]] := rfl
  have hlen : ([[]] : List Line).length = 0 + 1 := rfl
  have hbody : unwrapFuel connector.data (0 + 1) [[]] = some [[]] := by
    by_cases he : endsWith (goTrimRight []) connector.data
    · rw [unwrapFuel_succ_marked_nil 0 he, goTrimRight_nil]
      have ht : trimSuffix [] connector.data = [] := by
        rw [trimSuffix]
        split <;> simp
      rw [ht]
    · rw [unwrapFuel_succ_unmarked_some 0 (by simpa using he) (unwrapFuel_nil 0),
        goTrimRight_nil]
  rw [unwrapLinesInString, unwrapLines, hsplit, hlen, hbody]
  rfl

/-- C10 counterexample: the function is not total — a continuation run that
reaches a marker-terminated final line drives the scan index past the end of
the line slice (an out-of-range panic, `none` in the model). -/
theorem unwrap_out_of_bounds_counterexample :
    unwrapLinesInString "p \\\nq \\" "\\" = none := by
  decide

/-- C10 amended: every slice access of the scan stays in bounds — and the
function returns normally — whenever the final line of the input, after
right-trimming, does not end in the marker; the out-of-range access happens
exactly when a continuation run reaches a marker-terminated final line. -/
theorem unwrap_in_bounds_of_final_line_unmarked (text connector : String)
    (lst : Line) (h1 : (splitLines text.data).getLast? = some lst)
    (h2 : specMarked connector.data lst = false) :
    (unwrapLinesInString text connector).isSome := by
  rw [unwrapLinesInString, Option.isSome_map', unwrapLines]
  exact unwrapFuel_isSome (splitLines text.data).length (Nat.le_refl _) h1 h2

/-- Witness for C10 as amended at a concrete input whose final line is
unmarked even though earlier lines are marked. -/
theorem unwrap_in_bounds_witness :
    (splitLines ("u \\\nv" : String).data).getLast? = some ['v'] ∧
    specMarked ("\\" : String).data ['v'] = false ∧
    (unwrapLinesInString "u \\\nv" "\\").isSome :=
  ⟨by decide, by decide,
    unwrap_in_bounds_of_final_line_unmarked "u \\\nv" "\\" ['v'] (by decide) (by decide)⟩

/-- C7: Unwrap's error behavior.  When opening the source fails, when
reading it fails, or when creating the temp file fails, Unwrap aborts before
producing output: empty result path, the no-op cleanup, and a descriptive
error naming the affected path (or, for temp-file creation, the derived
pattern).  When only the write fails, Unwrap returns the temp file's path,
the active cleanup that removes that file, and the write error naming the
temp path. -/
theorem Unwrap_error_paths (fp : String) (env : IOEnv) :
    (env.openOk = false →
      UnwrapModel fp env
        = some ("", some CleanAction.noop, some ("Failed to open file: " ++ fp))) ∧
    (env.openOk = true → env.readOk = false →
      UnwrapModel fp env
        = some ("", some CleanAction.noop, some ("Failed to read from file: " ++ fp))) ∧
    (env.openOk = true → env.readOk = true → env.tempOk = false →
      UnwrapModel fp env
        = some ("", some CleanAction.noop,
            some ("Failed to created a temp file: " ++ tmpPattern fp))) ∧
    (∀ out, env.openOk = true → env.readOk = true → env.tempOk = true →
      env.writeOk = false → unwrapLinesInString env.content wrap = some out →
      UnwrapModel fp env
        = some (env.tempName, some (CleanAction.remove env.tempName),
            some ("Failed to write unwrapped text to: " ++ env.tempName))) := by
  refine ⟨?_, ?_, ?_, ?_⟩
  · intro h1
    simp [UnwrapModel, readFileModel, h1]
  · intro h1 h2
    simp [UnwrapModel, readFileModel, h1, h2]
  · intro h1 h2 h3
    simp [UnwrapModel, readFileModel, tempFileModel, h1, h2, h3]
  · intro out h1 h2 h3 h4 h5
    simp [UnwrapModel, readFileModel, tempFileModel, h1, h2, h3, h4, h5]

/-- Witness for C7: the four failure classes at concrete environments, and
the derived pattern evaluated on a concrete path. -/
theorem Unwrap_error_paths_witness :
    UnwrapModel "dir/test.txt" ⟨false, true, "t", true, "tmp0", true⟩
      = some ("", some CleanAction.noop,
          some ("Failed to open file: " ++ "dir/test.txt")) ∧
    UnwrapModel "dir/test.txt" ⟨true, false, "t", true, "tmp0", true⟩
      = some ("", some CleanAction.noop,
          some ("Failed to read from file: " ++ "dir/test.txt")) ∧
    UnwrapModel "dir/test.txt" ⟨true, true, "t", false, "tmp0", true⟩
      = some ("", some CleanAction.noop,
          some ("Failed to created a temp file: " ++ tmpPattern "dir/test.txt")) ∧
    UnwrapModel "dir/test.txt" ⟨true, true, "l1 \\\nl2", true, "tmp9", false⟩
      = some ("tmp9", some (CleanAction.remove "tmp9"),
          some ("Failed to write unwrapped text to: " ++ "tmp9")) ∧
    tmpPattern "dir/test.txt" = "test*.txt" :=
  ⟨(Unwrap_error_paths "dir/test.txt" ⟨false, true, "t", true, "tmp0", true⟩).1 rfl,
    (Unwrap_error_paths "dir/test.txt" ⟨true, false, "t", true, "tmp0", true⟩).2.1 rfl rfl,
    (Unwrap_error_paths "dir/test.txt" ⟨true, true, "t", false, "tmp0", true⟩).2.2.1
      rfl rfl rfl,
    (Unwrap_error_paths "dir/test.txt" ⟨true, true, "l1 \\\nl2", true, "tmp9", false⟩).2.2.2
      "l1 l2\n" rfl rfl rfl rfl (by decide),
    by decide⟩

/-- C8: on every return path of Unwrap the cleanup action is set (never the
nil function), and it is either the initial no-op (the paths on which no
temp file was created) or the action removing exactly the returned temp
path. -/
theorem Unwrap_cleanup_always_provided (fp : String) (env : IOEnv)
    (path : String) (cu : Option CleanAction) (err : Option String)
    (h : UnwrapModel fp env = some (path, cu, err)) :
    cu ≠ none ∧
      (cu = some CleanAction.noop ∨ cu = some (CleanAction.remove path)) := by
  obtain ⟨o, r, c, t, tn, w⟩ := env
  cases o with
  | false =>
    simp [UnwrapModel, readFileModel] at h
    obtain ⟨hp, hc, he⟩ := h
    subst hc
    simp
  | true =>
    cases r with
    | false =>
      simp [UnwrapModel, readFileModel] at h
      obtain ⟨hp, hc, he⟩ := h
      subst hc
      simp
    | true =>
      cases t with
      | false =>
        simp [UnwrapModel, readFileModel, tempFileModel] at h
        obtain ⟨hp, hc, he⟩ := h
        subst hc
        simp
      | true =>
        cases hcu : unwrapLinesInString c wrap with
        | none => simp [UnwrapModel, readFileModel, tempFileModel, hcu] at h
        | some outText =>
          cases w with
          | false =>
            simp [UnwrapModel, readFileModel, tempFileModel, hcu] at h
            obtain ⟨hp, hc, he⟩ := h
            subst hc
            subst hp
            simp
          | true =>
            simp [UnwrapModel, readFileModel, tempFileModel, hcu] at h
            obtain ⟨hp, hc, he⟩ := h
            subst hc
            subst hp
            simp

/-- Witness for C8 on the all-success path, where the cleanup removes the
returned temp file. -/
theorem Unwrap_cleanup_always_provided_witness :
    UnwrapModel "a.txt" ⟨true, true, "x", true, "tmp1", true⟩
      = some ("tmp1", some (CleanAction.remove "tmp1"), none) ∧
    (some (CleanAction.remove "tmp1") ≠ (none : Option CleanAction) ∧
      (some (CleanAction.remove "tmp1") = some CleanAction.noop ∨
        some (CleanAction.remove "tmp1") = some (CleanAction.remove "tmp1"))) :=
  ⟨by decide,
    Unwrap_cleanup_always_provided "a.txt" ⟨true, true, "x", true, "tmp1", true⟩
      "tmp1" (some (CleanAction.remove "tmp1")) none (by decide)⟩

end LinesPkg
